import Mathlib

set_option maxHeartbeats 1000000

/-!
Verification development for the telnet-console repository.

The definitions below are shallow embeddings of the JavaScript sources:

* `RingBuffer` and its operations come from `lib/intercept-console.js`
  (the version whose `RingBuffer` exposes `clear` and the rotated
  `forEach`/`map`/`filter`/`find`/`slice` accessors, and whose
  `ConsoleInterceptor` has the `minimal` option, the overridden `emit`
  and `reintercept`).
* The session, fan-out, cleanup, backoff, login and dispatcher logic
  come from `lib/tc-repl.js`.

Machine integers are modelled as `Nat`; all JavaScript arithmetic involved
is exact small-integer arithmetic.  Fallible code is modelled with
`Option`/`Except` or explicit boolean outcome flags.
-/

/-- State of `RingBuffer` from `intercept-console.js`:
`this.size = size; this.clear()` where `clear` sets `this.buf = []` and
`this.next = 0`.  The JS array `buf` is a Lean list. -/
structure RingBuffer (α : Type) where
  buf : List α
  next : Nat
  size : Nat
deriving Repr, DecidableEq

namespace RingBuffer

/-- Constructor `RingBuffer(size)`: stores `size` and calls `clear()`. -/
def new (α : Type) (size : Nat) : RingBuffer α :=
  { buf := [], next := 0, size := size }

/-- Method `RingBuffer$$clear`: `this.buf = []; this.next = 0;`. -/
def clear {α : Type} (rb : RingBuffer α) : RingBuffer α :=
  { rb with buf := [], next := 0 }

/-- Method `RingBuffer$$push`: `this.buf[this.next] = el; this.next =
(this.next + 1) % this.size;`.  The JS assignment `buf[next] = el`
overwrites in place when `next < buf.length` and appends when
`next = buf.length`; states reachable from `clear` never have
`next > buf.length`, and for such unreachable states we model the
assignment as an append as well.  The method is total: push never fails. -/
def push {α : Type} (rb : RingBuffer α) (el : α) : RingBuffer α :=
  { rb with
    buf := if rb.next < rb.buf.length then rb.buf.set rb.next el else rb.buf ++ [el]
    next := (rb.next + 1) % rb.size }

/-- The rotated read-out `this.buf.slice(this.next).concat(this.buf.slice(0,
this.next))` shared by the generated `forEach`/`map`/`filter`/`find`/`slice`
methods of `RingBuffer` (and by the older `join`): the elements oldest
first. -/
def toOrderedSequence {α : Type} (rb : RingBuffer α) : List α :=
  rb.buf.drop rb.next ++ rb.buf.take rb.next

/-- Pushing a whole list of elements, one `push` call per element, in order. -/
def pushAll {α : Type} (rb : RingBuffer α) (xs : List α) : RingBuffer α :=
  xs.foldl push rb

/-- Reachability invariant of a ring buffer: either the buffer is still
filling (`next` is the write position at the end) or it is full and `next`
wraps. -/
def Inv {α : Type} (rb : RingBuffer α) : Prop :=
  (rb.buf.length < rb.size ∧ rb.next = rb.buf.length) ∨
  (rb.buf.length = rb.size ∧ rb.next < rb.size)

/-- Abstract one-step model of `push` on the ordered contents: append, and
drop the oldest element once the capacity is reached. -/
def modelPush (C : Nat) (l : List α) (el : α) : List α :=
  if l.length < C then l ++ [el] else l.tail ++ [el]

end RingBuffer

/-!
Embedding of `ConsoleInterceptor` from `intercept-console.js`.

A logged JavaScript value is opaque; the embedding records the string its
rendering produces and whether rendering it throws, since `inspector` only
hands the value to the external `util` formatters.
-/

/-- One argument of an intercepted logging call. -/
structure JSArg where
  rendered : String
  renderThrows : Bool
deriving Repr, DecidableEq

/-- Helper `inspector(el, options)` of `intercept-console.js`: renders one
value (a string goes through `util.formatWithOptions` unquoted, everything
else through `util.inspect`), propagating any exception of the external
formatter. -/
def inspector (a : JSArg) : Except Unit String :=
  if a.renderThrows then .error () else .ok a.rendered

/-- The expression `Array.from(arguments).map(el => inspector(el,
options.inspect))` inside the wrappers: renders each argument left to
right, the first exception propagating. -/
def renderAll : List JSArg → Except Unit (List String)
  | [] => .ok []
  | a :: as =>
    match inspector a, renderAll as with
    | .error e, _ => .error e
    | .ok _, .error e => .error e
    | .ok s, .ok rest => .ok (s :: rest)

/-- The event object `details` built by the wrappers: `level`, the raw
`arguments`, and, unless `minimal` is set, `inspectedArguments` and
`date` (the date is kept only as a presence flag). -/
structure LogEvent where
  level : String
  args : List JSArg
  inspectedArguments : Option (List String)
  hasDate : Bool
deriving Repr, DecidableEq

/-- One subscriber callback registered on the interceptor; the embedding
records its identity and whether invoking it throws. -/
structure Handler where
  id : Nat
  throws : Bool
deriving Repr, DecidableEq

/-- The interceptor's listener table: `(eventName, handler)` registrations
in registration order (the `EventEmitter` state behind `on`/`off`). -/
def listenersFor (subs : List (String × Handler)) (name : String) : List Handler :=
  (subs.filter (fun p => p.1 == name)).map Prod.snd

/-- One delivery of an event to a subscriber: the channel it was emitted
on, the handler identity, and the event. -/
abbrev Delivery : Type := String × Nat × LogEvent

/-- Calling the listeners of one channel in order; a throwing listener runs
(so it receives the event) and then its exception propagates, skipping the
rest. -/
def deliverTo (channel : String) (ev : LogEvent) : List Handler → List Delivery × Bool
  | [] => ([], false)
  | h :: t =>
    if h.throws then ([(channel, h.id, ev)], true)
    else
      let r := deliverTo channel ev t
      ((channel, h.id, ev) :: r.1, r.2)

/-- Node's `EventEmitter.prototype.emit` (the interceptor's
`underlyingEmit`): raises `ERR_UNHANDLED_ERROR` when the event is named
`error` and has no listeners, otherwise calls every listener in order. -/
def underlyingEmit (subs : List (String × Handler)) (name : String)
    (ev : LogEvent) : List Delivery × Bool :=
  let hs := listenersFor subs name
  if name = "error" ∧ hs = [] then ([], true) else deliverTo name ev hs

/-- The overridden `ConsoleIntercept$$emit` of `intercept-console.js`: the
named event is forwarded to `underlyingEmit` only when it has listeners,
then the event is always emitted on the catch-all `any` channel. -/
def ciEmit (subs : List (String × Handler)) (name : String)
    (ev : LogEvent) : List Delivery × Bool :=
  let step1 :=
    if listenersFor subs name ≠ [] then underlyingEmit subs name ev
    else ([], false)
  if step1.2 then step1
  else
    let step2 := underlyingEmit subs "any" ev
    (step1.1 ++ step2.1, step2.2)

/-- Calls made to the saved (`underlyingConsole`) implementations: either
the transparent per-level call with the original arguments at the end of a
wrapper, or the `underlyingConsole.error(..)` report issued by the catch
block of `consoleWrapper`. -/
inductive UpstreamCall where
  | call (level : String) (args : List JSArg)
  | errorReport
deriving Repr, DecidableEq

/-- Observable state of one `ConsoleInterceptor`: its ring buffer of
events, the deliveries made to subscribers, and the calls made to the
saved upstream console functions, in order. -/
structure CIState where
  buffer : RingBuffer LogEvent
  deliveries : List Delivery
  upstream : List UpstreamCall

/-- Interceptor state right after construction with `keep` buffer slots. -/
def initCIState (keep : Nat) : CIState :=
  { buffer := RingBuffer.new LogEvent keep, deliveries := [], upstream := [] }

/-- The replacement entry point `consoleWrapper` installed for each level in
`options.levels`: inside a try block it renders the arguments (unless
`minimal`), builds the event, pushes it into the ring buffer and emits it;
the catch block reports any exception through `underlyingConsole.error`;
in every case the wrapper finally performs
`underlyingConsole[level].apply(null, arguments)` and never throws. -/
def consoleWrapper (minimal : Bool) (subs : List (String × Handler))
    (level : String) (args : List JSArg) (s : CIState) : CIState :=
  let rendered : Except Unit (Option (List String)) :=
    if minimal then .ok none else (renderAll args).map some
  match rendered with
  | .error _ =>
    { s with upstream := s.upstream ++ [.errorReport, .call level args] }
  | .ok ins =>
    let ev : LogEvent :=
      { level := level, args := args, inspectedArguments := ins, hasDate := !minimal }
    let s1 := { s with buffer := s.buffer.push ev }
    let em := ciEmit subs level ev
    let s2 := { s1 with deliveries := s1.deliveries ++ em.1 }
    if em.2 then
      { s2 with upstream := s2.upstream ++ [.errorReport, .call level args] }
    else
      { s2 with upstream := s2.upstream ++ [.call level args] }

/-- The replacement `traceWrapper` of `intercept-console.js`.  It has no
try/catch.  When `minimal` is set it builds the event from the raw
arguments only, pushes and emits it, and calls `underlyingConsole.trace`.
When `minimal` is not set, the source line
`details.inspectedArguments = [...]` reads the identifier
`inspectedArguments`, which is not bound anywhere in scope in this version
of the file, so the call raises a `ReferenceError` to the caller before
the event is built; nothing is pushed, emitted or forwarded upstream.
The boolean result records whether the call threw to its caller. -/
def traceWrapper (minimal : Bool) (subs : List (String × Handler))
    (args : List JSArg) (s : CIState) : CIState × Bool :=
  if minimal then
    let ev : LogEvent :=
      { level := "trace", args := args, inspectedArguments := none, hasDate := false }
    let s1 := { s with buffer := s.buffer.push ev }
    let em := ciEmit subs "trace" ev
    let s2 := { s1 with deliveries := s1.deliveries ++ em.1 }
    if em.2 then (s2, true)
    else ({ s2 with upstream := s2.upstream ++ [.call "trace" args] }, false)
  else
    (s, true)

/-- One call into the interceptor: either a leveled entry point
(`console.debug` .. `console.error`) or `console.trace`. -/
inductive ConsoleCall where
  | leveled (level : String) (args : List JSArg)
  | traced (args : List JSArg)

/-- Execute one intercepted call against the interceptor state. -/
def runCall (minimal : Bool) (subs : List (String × Handler))
    (s : CIState) : ConsoleCall → CIState
  | .leveled lv args => consoleWrapper minimal subs lv args s
  | .traced args => (traceWrapper minimal subs args s).1

/-- Execute a sequence of intercepted calls from a fresh interceptor. -/
def runCalls (minimal : Bool) (subs : List (String × Handler)) (keep : Nat)
    (calls : List ConsoleCall) : CIState :=
  calls.foldl (runCall minimal subs) (initCIState keep)

/-- Projection keeping only the transparent upstream calls. -/
def upstreamCallProj : UpstreamCall → Option (String × List JSArg)
  | .call lv args => some (lv, args)
  | .errorReport => none

/-- Recognizer for the `underlyingConsole.error` failure reports. -/
def UpstreamCall.isReport : UpstreamCall → Bool
  | .call _ _ => false
  | .errorReport => true

/-- Whether rendering the arguments of a call throws (never in minimal
mode). -/
def renderFails (minimal : Bool) (args : List JSArg) : Bool :=
  !minimal && args.any (fun a => a.renderThrows)

/-- Whether emitting an event at `lv` throws: some listener of `lv` or of
the catch-all channel throws.  An absence of listeners never makes the
overridden `emit` throw. -/
def emitThrows (subs : List (String × Handler)) (lv : String) : Bool :=
  (listenersFor subs lv).any (fun h => h.throws) ||
  (listenersFor subs "any").any (fun h => h.throws)

/-- Whether the interception pipeline of one leveled call fails
internally (rendering or emission). -/
def pipelineFails (minimal : Bool) (subs : List (String × Handler))
    (lv : String) (args : List JSArg) : Bool :=
  renderFails minimal args || emitThrows subs lv

/-- The `details` event object built by `consoleWrapper` when nothing in
the pipeline throws. -/
def wrapperEvent (minimal : Bool) (lv : String) (args : List JSArg) : LogEvent :=
  { level := lv, args := args,
    inspectedArguments :=
      if minimal then none else some (args.map (fun a => a.rendered)),
    hasDate := !minimal }

/-- Length agreement between rendered and raw arguments of one event. -/
def eventOkB (ev : LogEvent) : Bool :=
  match ev.inspectedArguments with
  | none => true
  | some l => l.length == ev.args.length

/-- All events held in the buffer or already delivered satisfy
`eventOkB`. -/
def stateOk (s : CIState) : Prop :=
  (∀ ev ∈ s.buffer.buf, eventOkB ev = true) ∧
  (∀ d ∈ s.deliveries, eventOkB d.2.2 = true)

/-!
Embedding of the session fan-out path of `tc-repl.js`:
`handleConsoleEvents`, `writeLogEntry` and the redraw handlers around it.
-/

/-- Terminal interactions performed while fanning one log event out to one
session: the before-write redraw step (`beforeWriteHandler`: pause the
editor, move the cursor up), a byte write on the transport, and the
after-write redraw step (`afterWriteHandler`: redraw prompt and line,
reposition the cursor). -/
inductive SessionAction where
  | beforeRedraw
  | write (text : String)
  | afterRedraw
deriving Repr, DecidableEq

/-- The JavaScript `replace(/([^\r])\n/g, "$1\r\n")` of `writeLogEntry`:
scan left to right; at each position, a character other than `\r` followed
by `\n` is rewritten with `\r` inserted between them and both characters
are consumed; otherwise one character is consumed.  Matches do not
overlap. -/
def crlfTranslate : List Char → List Char
  | [] => []
  | [c] => [c]
  | c :: d :: rest =>
    if c ≠ '\r' ∧ d = '\n' then c :: '\r' :: '\n' :: crlfTranslate rest
    else c :: crlfTranslate (d :: rest)

/-- String form of the newline fix-up applied to each rendered argument. -/
def jsNewlineFix (s : String) : String :=
  String.mk (crlfTranslate s.data)

/-- The write loop of `writeLogEntry`: a space before every argument except
the first, then the newline-fixed argument. -/
def argWrites (first : Bool) : List String → List SessionAction
  | [] => []
  | a :: rest =>
    (if first then [] else [SessionAction.write " "]) ++
    [SessionAction.write (jsNewlineFix a)] ++ argWrites false rest

/-- Writes performed by `writeLogEntry(client, entry)` on a live transport:
clear from the start of the line to the end of the display, the rendered
arguments joined by the loop above, and a terminating CRLF. -/
def writeLogEntry (inspectedArguments : List String) : List SessionAction :=
  [SessionAction.write "\x1b[0G\x1b[0J"] ++ argWrites true inspectedArguments ++
  [SessionAction.write "\r\n"]

/-- The per-event fan-out handler `handleConsoleEvents` of
`handleNewClient`: nothing at all when the session's `logOff` flag is set,
otherwise the before/write/after triad. -/
def handleConsoleEvents (logOff : Bool) (inspectedArguments : List String) :
    List SessionAction :=
  if logOff then []
  else [SessionAction.beforeRedraw] ++ writeLogEntry inspectedArguments ++
    [SessionAction.afterRedraw]

/-- Concatenated text of the transport writes in an action trace. -/
def writtenText : List SessionAction → String
  | [] => ""
  | SessionAction.write t :: rest => t ++ writtenText rest
  | SessionAction.beforeRedraw :: rest => writtenText rest
  | SessionAction.afterRedraw :: rest => writtenText rest

/-- The translation the claim describes: every `\n` not immediately
preceded by `\r` (including one at the very start) becomes `\r\n`.
`prev` is the preceding character of the original string, if any. -/
def bareLFTranslateAux (prev : Option Char) : List Char → List Char
  | [] => []
  | c :: rest =>
    if c = '\n' ∧ prev ≠ some '\r' then
      '\r' :: '\n' :: bareLFTranslateAux (some c) rest
    else c :: bareLFTranslateAux (some c) rest

/-- String form of the claimed bare-newline translation. -/
def bareLFTranslate (s : String) : String :=
  String.mk (bareLFTranslateAux none s.data)

/-- Every `\n` of the list is immediately preceded (within `prev ::
list`) by a character that is neither `\r` nor `\n`. -/
def lfOk (prev : Option Char) : List Char → Bool
  | [] => true
  | c :: rest =>
    (if c = '\n' then
      (match prev with
       | some q => decide (q ≠ '\r' ∧ q ≠ '\n')
       | none => false)
     else true) && lfOk (some c) rest

/-- Joining a list of strings with a separator. -/
def joinWith (sep : String) : List String → String
  | [] => ""
  | [a] => a
  | a :: rest => a ++ sep ++ joinWith sep rest

/-!
Embedding of the session cleanup logic of `handleNewClient` in
`tc-repl.js`: `client.cleanup` unsubscribes `handleConsoleEvents` from the
interceptor's `any` channel, removes the two event listeners, destroys the
transport, removes the client from the registry by `indexOf`/`splice`
(warning when absent), and finally replaces `client.cleanup` with a no-op.
Both the `error` listener and the `close` listener invoke the *current*
`client.cleanup`. -/

structure CleanupState where
  registry : List Nat
  anySubs : List Nat
  cleanupReplaced : Bool
  destroyCalls : Nat
  registryRemovals : Nat
  interceptorUnsubs : Nat
  warns : Nat
deriving Repr, DecidableEq

/-- One invocation of `client.cleanup()` for the client `clientId` whose
`handleConsoleEvents` handler has identity `hId`.  Once `cleanupReplaced`
is set, `client.cleanup` is the no-op `() => undefined`. -/
def fireCleanup (clientId hId : Nat) (s : CleanupState) : CleanupState :=
  if s.cleanupReplaced then s
  else
    { registry := s.registry.erase clientId,
      anySubs := s.anySubs.erase hId,
      cleanupReplaced := true,
      destroyCalls := s.destroyCalls + 1,
      registryRemovals :=
        s.registryRemovals + (if clientId ∈ s.registry then 1 else 0),
      interceptorUnsubs :=
        s.interceptorUnsubs + (if hId ∈ s.anySubs then 1 else 0),
      warns := s.warns + (if clientId ∈ s.registry then 0 else 1) }

/-- The two transport events wired to `client.cleanup()`. -/
inductive ClientEvent where
  | errorEvent
  | closeEvent
deriving Repr, DecidableEq

/-- Both listeners call the current `client.cleanup`. -/
def fireClientEvent (clientId hId : Nat) (s : CleanupState)
    (e : ClientEvent) : CleanupState :=
  match e with
  | .errorEvent => fireCleanup clientId hId s
  | .closeEvent => fireCleanup clientId hId s

/-- Fire a sequence of transport events against the session. -/
def fireEvents (clientId hId : Nat) (s : CleanupState)
    (evs : List ClientEvent) : CleanupState :=
  evs.foldl (fireClientEvent clientId hId) s

/-- The backoff delay computed by the authentication loop of
`handleNewClient`: `Math.min(5000, 100 + 50 * Math.pow(4, tries++))`,
with `tries` counting failed prompts from zero.  All values involved are
small integers, on which JavaScript float arithmetic is exact, so `Nat`
is a faithful model (for large `tries` the power exceeds 5000 long before
float rounding matters, and the minimum is taken). -/
def backoffDelayMs (tries : Nat) : Nat :=
  min 5000 (100 + 50 * 4 ^ tries)

/-!
Embedding of the authentication loop of `handleNewClient` in
`tc-repl.js`:

```
do {
  client.write('login: ');    login = await readln(client, true);
  client.write('password: '); password = await readln(client, false);
  client.write('\r\n');       await sleepMs(backoff);
} while (login.length && authFun(login, password) !== true);
client.login = login;
client.write(`Welcome, ${client.login}! `);
client.logOff = options.logOff;
client.write(`Connected to ...`);
client.repl = require('repl').start(...);
```

The operator's typed lines are supplied as a list of login/password
pairs; `none` means the loop is still waiting for more input.
-/

def authLoop (auth : String → String → Bool) :
    List (String × String) → Option String
  | [] => none
  | (login, password) :: rest =>
    if login.length ≠ 0 ∧ auth login password ≠ true then authLoop auth rest
    else some login

/-- Observable session state reached when the authentication phase ends. -/
structure SessionOutcome where
  login : Option String
  welcomeWritten : Bool
  replAttached : Bool
  logOff : Bool
deriving Repr, DecidableEq

/-- What `handleNewClient` does after the loop exits: record the login,
write the welcome banner, reset `logOff` from the options, write the
connection banner and attach the REPL. -/
def handleAuthPhase (auth : String → String → Bool) (optLogOff : Bool)
    (inputs : List (String × String)) : Option SessionOutcome :=
  match authLoop auth inputs with
  | none => none
  | some login =>
    some { login := some login, welcomeWritten := true,
           replAttached := true, logOff := optLogOff }

/-!
Embedding of the command dispatcher `evalWrapper` of `tc-repl.js`.
-/

/-- A JavaScript value as seen by the dispatcher.  `external` stands for a
value obtained from the host environment whose structure the claims do
not inspect. -/
inductive JSValue where
  | undefined
  | num (n : Int)
  | str (s : String)
  | obj (fields : List (String × JSValue))
  | list (elems : List JSValue)
  | external (tag : String)

/-- The `typeof result === 'object'` test (objects and arrays). -/
def isObjB : JSValue → Bool
  | .obj _ => true
  | .list _ => true
  | _ => false

/-- JavaScript property lookup on an object literal: first binding wins,
absent fields read as `undefined`. -/
def getField (fields : List (String × JSValue)) (name : String) : JSValue :=
  match fields.find? (fun p => p.1 == name) with
  | some p => p.2
  | none => .undefined

/-- Character class `\w` of the first capture group in
`cmd.match(/^(\w*)(\s*)(.*)(\n?)$/)`. -/
def isWordChar (c : Char) : Bool :=
  c.isAlphanum || c == '_'

/-- Splitting a remainder of the form `.id1.id2...` into its identifier
chain; any other shape (for instance bracket indexing) yields `none`.
The fuel argument only bounds the recursion — every step consumes at
least the leading dot, so `fuel = length` never runs out — and keeps the
definition structurally recursive, hence evaluable. -/
def splitDotPathAux (fuel : Nat) (l : List Char) : Option (List String) :=
  match l with
  | [] => some []
  | c :: rest =>
    match fuel with
    | 0 => none
    | fuel2 + 1 =>
      if c = '.' then
        let id := rest.takeWhile isWordChar
        if id.length = 0 then none
        else
          match splitDotPathAux fuel2 (rest.drop id.length) with
          | some ps => some (String.mk id :: ps)
          | none => none
      else none

/-- The identifier chain of a dotted remainder, when it has that shape. -/
def splitDotPath (l : List Char) : Option (List String) :=
  splitDotPathAux l.length l

/-- One JavaScript property read, as the host evaluator performs it
inside the synthesized accessor: objects look the field up; the structure
of host-supplied `external` values is opaque, so the read stays opaque;
reading a property of `undefined` throws a `TypeError`, which the
dispatcher's catch surfaces as the result value; the remaining primitives
box to objects without own properties and read as `undefined`. -/
def jsGetProp (v : JSValue) (f : String) : JSValue :=
  match v with
  | .obj fields => getField fields f
  | .external tag => .external (tag ++ "." ++ f)
  | .undefined => .external "TypeError"
  | _ => .undefined

/-- Walking an identifier chain through a value, one property read per
identifier. -/
def walkPath (v : JSValue) : List String → JSValue
  | [] => v
  | f :: fs => walkPath (jsGetProp v f) fs

/-- The host evaluator applied to the synthesized accessor
`(x) => x<rest>` and the handler result.  Following the specification's
reframing of this host-evaluated expression as an explicit property-path
accessor, a remainder that is a chain of dotted identifiers is split and
walked through the value; remainders the model does not interpret (such
as bracket indexing, whose content is an arbitrary host expression) stay
opaque. -/
def hostAccess (rest : String) (v : JSValue) : JSValue :=
  match splitDotPath rest.data with
  | some path => walkPath v path
  | none => .external ("eval" ++ rest)

/-- The destructuring `[,firstWord,,rest] = cmd.match(...)` for the
single-line inputs the REPL delivers: the leading run of word
characters, then the remainder with leading whitespace and one trailing
newline stripped. -/
def parseCommandLine (cmd : String) : String × String :=
  let w := cmd.data.takeWhile isWordChar
  let r1 := (cmd.data.drop w.length).dropWhile (fun c => c.isWhitespace)
  let r2 := if r1.getLast? = some '\n' then r1.dropLast else r1
  (String.mk w, String.mk r2)

/-- Model of `Object.keys` used by the `keys` command wrapper. -/
def keysOf : JSValue → JSValue
  | .obj fields => .list (fields.map (fun p => JSValue.str p.1))
  | _ => .list []

/-- Result of one `evalWrapper` dispatch: either the value handed to the
REPL callback by the command path, or the whole line falling through to
the generic host-expression evaluator. -/
inductive EvalOutcome where
  | value (v : JSValue)
  | generic (cmd : String)

/-- The dispatcher `evalWrapper`: split the line into first word and
remainder; `keys` with a non-empty remainder re-splits it and wraps the
result with `Object.keys`, `keys` alone becomes `help`; a registered
command runs its handler, and when the handler returns an object and the
remainder begins with `.` or `[`, the synthesized accessor is applied to
the result; an unrecognized first word sends the entire original line to
the generic evaluator. -/
def evalWrapperModel (tbl : List (String × (String → JSValue)))
    (cmd : String) : EvalOutcome :=
  let p0 := parseCommandLine cmd
  let useKeys := p0.1 = "keys" ∧ ¬ p0.2.data.all (fun c => c.isWhitespace)
  let p1 :=
    if p0.1 = "keys" then
      (if p0.2.data.all (fun c => c.isWhitespace) then ("help", p0.2)
       else parseCommandLine p0.2)
    else p0
  match tbl.find? (fun q => q.1 == p1.1) with
  | some q =>
    let r := q.2 p1.2
    let r2 :=
      if isObjB r ∧
          (p1.2.data.head? = some '.' ∨ p1.2.data.head? = some '[') then
        hostAccess p1.2 r
      else r
    .value (if useKeys then keysOf r2 else r2)
  | none => .generic cmd

/-- Host facts the default command handlers read from the process and the
OS: the `whoami` fields, and the structured values behind `stat`
(`process.resourceUsage()`, `process.memoryUsage()`, `os.totalmem()`) and
`ifconfig` (`os.networkInterfaces()`). -/
structure HostEnv where
  procName : String
  pid : Int
  ppid : Int
  node : String
  userInfo : JSValue
  resources : JSValue
  memory : JSValue
  totalmem : JSValue
  netIfs : JSValue

/-- The structured record returned by the `whoami` default command. -/
def whoamiRecord (env : HostEnv) : JSValue :=
  .obj [("process", .str env.procName), ("pid", .num env.pid),
        ("ppid", .num env.ppid), ("node", .str env.node),
        ("user", env.userInfo)]

/-- The structured record returned by the `stat` default command. -/
def statRecord (env : HostEnv) : JSValue :=
  .obj [("resources", env.resources), ("memory", env.memory),
        ("totalmem", env.totalmem)]

/-- The `defaultCommands` table of `tc-repl.js`, in source order.  The
object-returning handlers (`stat`, `whoami`, `ifconfig`) build their
records from the host environment; the handlers returning strings,
booleans or `undefined` — never objects, so the drill-down branch cannot
apply to them — are opaque `external` values. -/
def defaultCommandsTbl (env : HostEnv) :
    List (String × (String → JSValue)) :=
  [("stat", fun _ => statRecord env),
   ("uptime", fun _ => .external "uptime"),
   ("whoami", fun _ => whoamiRecord env),
   ("ifconfig", fun _ => env.netIfs),
   ("raise", fun a => .external ("raise" ++ a)),
   ("flush", fun a => .external ("flush" ++ a)),
   ("log", fun a => .external ("log" ++ a)),
   ("who", fun a => .external ("who" ++ a)),
   ("wall", fun a => .external ("wall" ++ a)),
   ("debug", fun _ => .undefined),
   ("print", fun a => .external ("print" ++ a))]

/-- A closed host environment used by the drill-down witness. -/
def hostEnvExample : HostEnv :=
  { procName := "daemon.js", pid := 42, ppid := 41,
    node := "/usr/bin/node", userInfo := .external "userInfo",
    resources := .external "resourceUsage",
    memory := .external "memoryUsage",
    totalmem := .num 8589934592,
    netIfs := .obj [("lo", .external "lo")] }

namespace RingBuffer

theorem length_modelPush {α : Type} (C : Nat) (hC : 0 < C) (l : List α) (el : α)
    (h : l.length ≤ C) : (modelPush C l el).length ≤ C := by
  unfold modelPush
  by_cases hlt : l.length < C
  · simp [hlt]; omega
  · have hEq : l.length = C := le_antisymm h (not_lt.mp hlt)
    have hne : l ≠ [] := by
      intro hnil; rw [hnil] at hEq; simp at hEq; omega
    simp [hlt, List.length_tail]
    omega

theorem set_drop_of_lt {α : Type} (l : List α) (i j : Nat) (a : α) (hij : i < j) :
    (l.set i a).drop j = l.drop j := by
  induction l generalizing i j with
  | nil => simp
  | cons x xs ih =>
    cases i with
    | zero =>
      cases j with
      | zero => omega
      | succ j => simp
    | succ i =>
      cases j with
      | zero => omega
      | succ j =>
        simp only [List.set_cons_succ, List.drop_succ_cons]
        exact ih i j (by omega)

theorem set_take_succ {α : Type} (l : List α) (i : Nat) (a : α) (h : i < l.length) :
    (l.set i a).take (i + 1) = l.take i ++ [a] := by
  induction l generalizing i with
  | nil => simp at h
  | cons x xs ih =>
    cases i with
    | zero => simp
    | succ i =>
      simp only [List.set_cons_succ, List.take_succ_cons, List.length_cons] at *
      rw [ih i (by omega)]
      simp

theorem push_preserves_inv {α : Type} (rb : RingBuffer α) (el : α)
    (hC : 0 < rb.size) (h : Inv rb) : Inv (rb.push el) := by
  unfold Inv push at *
  rcases h with ⟨hlt, hnext⟩ | ⟨heq, hnext⟩
  · have hnlt : ¬ rb.next < rb.buf.length := by omega
    simp only [hnlt, if_false, List.length_append, List.length_cons, List.length_nil]
    by_cases hfull : rb.buf.length + 1 < rb.size
    · left
      constructor
      · simpa using hfull
      · rw [hnext]
        simp [Nat.mod_eq_of_lt (by omega : rb.buf.length + 1 < rb.size)]
    · right
      have hsz : rb.buf.length + 1 = rb.size := by omega
      constructor
      · simpa using hsz
      · rw [hnext, hsz]
        simp [Nat.mod_self]
        omega
  · have hlt2 : rb.next < rb.buf.length := by omega
    simp only [hlt2, if_true, List.length_set]
    right
    refine ⟨heq, ?_⟩
    exact Nat.mod_lt _ hC

theorem push_ordered {α : Type} (rb : RingBuffer α) (el : α)
    (hC : 0 < rb.size) (h : Inv rb) :
    (rb.push el).toOrderedSequence = modelPush rb.size rb.toOrderedSequence el := by
  unfold Inv at h
  rcases h with ⟨hlt, hnext⟩ | ⟨heq, hnext⟩
  · -- still filling: JS appends, next advances
    have hnlt : ¬ rb.next < rb.buf.length := by omega
    have hpushbuf : (rb.push el).buf = rb.buf ++ [el] := by
      unfold push
      simp [hnlt]
    have hpushnext : (rb.push el).next = (rb.next + 1) % rb.size := rfl
    have hordr : rb.toOrderedSequence = rb.buf := by
      unfold toOrderedSequence
      rw [hnext, List.drop_length, List.take_length, List.nil_append]
    have hmodel : modelPush rb.size rb.toOrderedSequence el = rb.buf ++ [el] := by
      unfold modelPush
      rw [hordr, if_pos hlt]
    rw [hmodel]
    unfold toOrderedSequence
    rw [hpushbuf, hpushnext]
    by_cases hfull : rb.next + 1 < rb.size
    · rw [Nat.mod_eq_of_lt hfull]
      have h1 : rb.next + 1 = (rb.buf ++ [el]).length := by
        simp [hnext]
      rw [h1, List.drop_length, List.take_length, List.nil_append]
    · have hsz : rb.next + 1 = rb.size := by omega
      rw [hsz, Nat.mod_self, List.drop_zero, List.take_zero, List.append_nil]
  · -- full buffer: JS overwrites slot `next`
    have hlt2 : rb.next < rb.buf.length := by omega
    have hordlen : rb.toOrderedSequence.length = rb.size := by
      unfold toOrderedSequence
      simp
      omega
    have hnotlt : ¬ rb.toOrderedSequence.length < rb.size := by omega
    have hdne : rb.buf.drop rb.next ≠ [] := by
      intro hnil
      have := congrArg List.length hnil
      simp at this
      omega
    obtain ⟨y, ys, hys⟩ := List.exists_cons_of_ne_nil hdne
    have hys2 : rb.buf.drop (rb.next + 1) = ys := by
      rw [← List.tail_drop, hys, List.tail_cons]
    unfold toOrderedSequence push modelPush
    simp only [hlt2, if_true]
    rw [if_neg (by unfold toOrderedSequence at hnotlt; exact hnotlt)]
    have htail : (rb.buf.drop rb.next ++ rb.buf.take rb.next).tail =
        ys ++ rb.buf.take rb.next := by
      rw [hys]
      rfl
    rw [htail]
    by_cases hwrap : rb.next + 1 < rb.size
    · rw [Nat.mod_eq_of_lt hwrap]
      rw [set_drop_of_lt _ _ _ _ (by omega : rb.next < rb.next + 1)]
      rw [set_take_succ _ _ _ hlt2, hys2]
      simp [List.append_assoc]
    · have hlast : rb.next + 1 = rb.size := by omega
      have hys3 : ys = [] := by
        rw [← hys2]
        exact List.drop_eq_nil_of_le (by omega)
      rw [hlast, Nat.mod_self]
      simp only [List.drop_zero, List.take_zero, List.append_nil, hys3,
        List.nil_append]
      have hdropall2 : (rb.buf.set rb.next el).drop (rb.next + 1) = [] := by
        apply List.drop_eq_nil_of_le
        simp
        omega
      have hsplit : rb.buf.set rb.next el =
          (rb.buf.set rb.next el).take (rb.next + 1) ++
          (rb.buf.set rb.next el).drop (rb.next + 1) :=
        (List.take_append_drop _ _).symm
      rw [hsplit, hdropall2, List.append_nil, set_take_succ _ _ _ hlt2]

theorem foldl_modelPush {α : Type} (C : Nat) (hC : 0 < C) :
    ∀ (xs l : List α), l.length ≤ C →
      xs.foldl (modelPush C) l = (l ++ xs).drop (l.length + xs.length - C) := by
  intro xs
  induction xs with
  | nil =>
    intro l hl
    simp [Nat.sub_eq_zero_of_le hl]
  | cons x xs ih =>
    intro l hl
    rw [List.foldl_cons, ih (modelPush C l x) (length_modelPush C hC l x hl)]
    by_cases hlt : l.length < C
    · have hmp : modelPush C l x = l ++ [x] := by
        unfold modelPush
        rw [if_pos hlt]
      rw [hmp]
      have harr : (l ++ [x]) ++ xs = l ++ x :: xs := by simp
      rw [harr]
      have hcount : (l ++ [x]).length + xs.length - C =
          l.length + (x :: xs).length - C := by
        simp
        omega
      rw [hcount]
    · have hEq : l.length = C := le_antisymm hl (not_lt.mp hlt)
      have hne : l ≠ [] := by
        intro h0
        rw [h0] at hEq
        simp at hEq
        omega
      have hmp : modelPush C l x = l.tail ++ [x] := by
        unfold modelPush
        rw [if_neg hlt]
      rw [hmp]
      obtain ⟨y, ys, rfl⟩ := List.exists_cons_of_ne_nil hne
      simp only [List.tail_cons]
      simp only [List.length_cons] at hEq
      have hc1 : (ys ++ [x]).length + xs.length - C = xs.length := by
        simp
        omega
      have hc2 : (y :: ys).length + (x :: xs).length - C = xs.length + 1 := by
        simp
        omega
      rw [hc1, hc2]
      have hsplit : (y :: ys) ++ x :: xs = y :: (ys ++ x :: xs) := rfl
      rw [hsplit, List.drop_succ_cons]
      congr 1
      simp

theorem pushAll_ordered {α : Type} :
    ∀ (xs : List α) (rb : RingBuffer α), 0 < rb.size → Inv rb →
      Inv (rb.pushAll xs) ∧
      (rb.pushAll xs).toOrderedSequence =
        xs.foldl (modelPush rb.size) rb.toOrderedSequence := by
  intro xs
  induction xs with
  | nil =>
    intro rb h0 hinv
    exact ⟨hinv, rfl⟩
  | cons x xs ih =>
    intro rb h0 hinv
    have hsize : (rb.push x).size = rb.size := rfl
    have h1 := push_preserves_inv rb x h0 hinv
    have h2 := push_ordered rb x h0 hinv
    have h3 := ih (rb.push x) (by rw [hsize]; exact h0) h1
    have hfold : rb.pushAll (x :: xs) = (rb.push x).pushAll xs := rfl
    refine ⟨by rw [hfold]; exact h3.1, ?_⟩
    rw [hfold, h3.2, hsize, h2]
    rfl

end RingBuffer

/-- C2: for a `RingBuffer` constructed with capacity `C > 0`, after pushing
`C + k` elements (any `k > 0`), the rotated oldest-first read-out shared by
`forEach`/`map`/`filter`/`find`/`slice` contains exactly the `C` most
recently pushed elements, in insertion order.  `push` is total in the
embedding, so it never fails. -/
theorem ringBuffer_overflow {α : Type} (C k : Nat) (hC : 0 < C) (hk : 0 < k)
    (xs : List α) (hlen : xs.length = C + k) :
    ((RingBuffer.new α C).pushAll xs).toOrderedSequence = xs.drop k := by
  have hinv : RingBuffer.Inv (RingBuffer.new α C) :=
    Or.inl ⟨by simpa [RingBuffer.new] using hC, rfl⟩
  have hsz : (RingBuffer.new α C).size = C := rfl
  have h := RingBuffer.pushAll_ordered xs (RingBuffer.new α C)
    (by rw [hsz]; exact hC) hinv
  rw [h.2]
  have hord0 : (RingBuffer.new α C).toOrderedSequence = ([] : List α) := rfl
  rw [hsz, hord0, RingBuffer.foldl_modelPush C hC xs [] (by simp)]
  have hcount : ([] : List α).length + xs.length - C = k := by
    simp [hlen]
  rw [hcount, List.nil_append]

/-- Witness for C2 at capacity 2 and 3 pushes: the read-out is the last two
elements. -/
theorem ringBuffer_overflow_witness :
    ((RingBuffer.new Nat 2).pushAll [10, 20, 30]).toOrderedSequence = [20, 30] := by
  have h := ringBuffer_overflow 2 1 (by decide) (by decide) [10, 20, 30] (by decide)
  simpa using h

theorem renderAll_of_fails (args : List JSArg)
    (h : args.any (fun a => a.renderThrows) = true) :
    renderAll args = .error () := by
  induction args with
  | nil => simp at h
  | cons a as ih =>
    simp only [List.any_cons, Bool.or_eq_true] at h
    unfold renderAll inspector
    rcases h with h | h
    · rw [if_pos h]
    · rw [ih h]
      by_cases ha : a.renderThrows = true
      · rw [if_pos ha]
      · rw [if_neg ha]

theorem renderAll_of_ok (args : List JSArg)
    (h : args.any (fun a => a.renderThrows) = false) :
    renderAll args = .ok (args.map (fun a => a.rendered)) := by
  induction args with
  | nil => rfl
  | cons a as ih =>
    simp only [List.any_cons, Bool.or_eq_false_iff] at h
    unfold renderAll inspector
    rw [ih h.2, if_neg (by simp [h.1])]
    rfl

theorem deliverTo_snd (ch : String) (ev : LogEvent) (hs : List Handler) :
    (deliverTo ch ev hs).2 = hs.any (fun h => h.throws) := by
  induction hs with
  | nil => rfl
  | cons h t ih =>
    unfold deliverTo
    by_cases hth : h.throws = true
    · simp [hth]
    · simp only [Bool.not_eq_true] at hth
      simp [hth, ih]

theorem deliverTo_of_nothrow (ch : String) (ev : LogEvent) (hs : List Handler)
    (h : ∀ x ∈ hs, x.throws = false) :
    deliverTo ch ev hs = (hs.map (fun x => (ch, x.id, ev)), false) := by
  induction hs with
  | nil => rfl
  | cons x t ih =>
    have hx : x.throws = false := h x (by simp)
    unfold deliverTo
    rw [if_neg (by simp [hx]), ih (fun y hy => h y (by simp [hy]))]
    rfl

theorem mem_listenersFor (subs : List (String × Handler)) (name : String)
    (h : Handler) (hm : h ∈ listenersFor subs name) :
    ∃ p ∈ subs, p.2 = h := by
  unfold listenersFor at hm
  obtain ⟨p, hp, rfl⟩ := List.mem_map.mp hm
  exact ⟨p, List.mem_of_mem_filter hp, rfl⟩

theorem listenersFor_nothrow (subs : List (String × Handler)) (name : String)
    (hno : ∀ p ∈ subs, p.2.throws = false) :
    (listenersFor subs name).any (fun h => h.throws) = false := by
  rw [List.any_eq_false]
  intro h hm
  obtain ⟨p, hp, rfl⟩ := mem_listenersFor subs name h hm
  simp [hno p hp]

theorem underlyingEmit_any (subs : List (String × Handler)) (ev : LogEvent) :
    underlyingEmit subs "any" ev = deliverTo "any" ev (listenersFor subs "any") := by
  unfold underlyingEmit
  rw [if_neg]
  intro hc
  exact absurd hc.1 (by decide)

theorem underlyingEmit_of_ne_nil (subs : List (String × Handler)) (lv : String)
    (ev : LogEvent) (h : listenersFor subs lv ≠ []) :
    underlyingEmit subs lv ev = deliverTo lv ev (listenersFor subs lv) := by
  unfold underlyingEmit
  rw [if_neg]
  intro hc
  exact h hc.2

theorem ciEmit_snd (subs : List (String × Handler)) (lv : String)
    (ev : LogEvent) : (ciEmit subs lv ev).2 = emitThrows subs lv := by
  simp only [ciEmit]
  by_cases hempty : listenersFor subs lv = []
  · have hstep1 : (if listenersFor subs lv ≠ [] then underlyingEmit subs lv ev
        else (([], false) : List Delivery × Bool)) = ([], false) := by
      rw [if_neg]
      simp [hempty]
    rw [hstep1, if_neg (by simp), underlyingEmit_any]
    simp [deliverTo_snd, emitThrows, hempty]
  · have hstep1 : (if listenersFor subs lv ≠ [] then underlyingEmit subs lv ev
        else (([], false) : List Delivery × Bool)) =
        deliverTo lv ev (listenersFor subs lv) := by
      rw [if_pos hempty]
      exact underlyingEmit_of_ne_nil subs lv ev hempty
    rw [hstep1]
    by_cases hth : (listenersFor subs lv).any (fun h => h.throws) = true
    · rw [if_pos (by rw [deliverTo_snd]; exact hth)]
      simp [deliverTo_snd, emitThrows, hth]
    · have hth2 : (listenersFor subs lv).any (fun h => h.throws) = false := by
        simpa using hth
      rw [if_neg (by rw [deliverTo_snd]; simp [hth2]), underlyingEmit_any]
      simp [deliverTo_snd, emitThrows, hth2]

theorem ciEmit_of_nothrow (subs : List (String × Handler)) (lv : String)
    (ev : LogEvent) (hno : ∀ p ∈ subs, p.2.throws = false) :
    ciEmit subs lv ev =
      ((listenersFor subs lv).map (fun h => (lv, h.id, ev)) ++
       (listenersFor subs "any").map (fun h => ("any", h.id, ev)), false) := by
  have hlv : ∀ x ∈ listenersFor subs lv, x.throws = false := by
    intro x hx
    obtain ⟨p, hp, rfl⟩ := mem_listenersFor subs lv x hx
    exact hno p hp
  have hany : ∀ x ∈ listenersFor subs "any", x.throws = false := by
    intro x hx
    obtain ⟨p, hp, rfl⟩ := mem_listenersFor subs "any" x hx
    exact hno p hp
  simp only [ciEmit]
  by_cases hempty : listenersFor subs lv = []
  · have hstep1 : (if listenersFor subs lv ≠ [] then underlyingEmit subs lv ev
        else (([], false) : List Delivery × Bool)) = ([], false) := by
      rw [if_neg]
      simp [hempty]
    rw [hstep1, if_neg (by simp), underlyingEmit_any,
      deliverTo_of_nothrow _ _ _ hany]
    simp [hempty]
  · have hstep1 : (if listenersFor subs lv ≠ [] then underlyingEmit subs lv ev
        else (([], false) : List Delivery × Bool)) =
        ((listenersFor subs lv).map (fun x => (lv, x.id, ev)), false) := by
      rw [if_pos hempty, underlyingEmit_of_ne_nil subs lv ev hempty]
      exact deliverTo_of_nothrow _ _ _ hlv
    rw [hstep1, if_neg (by simp), underlyingEmit_any,
      deliverTo_of_nothrow _ _ _ hany]

theorem consoleWrapper_upstream_delta (minimal : Bool)
    (subs : List (String × Handler)) (lv : String) (args : List JSArg)
    (s : CIState) :
    (consoleWrapper minimal subs lv args s).upstream =
      s.upstream ++
        (if pipelineFails minimal subs lv args then
          [UpstreamCall.errorReport, UpstreamCall.call lv args]
        else [UpstreamCall.call lv args]) := by
  unfold consoleWrapper pipelineFails renderFails
  cases minimal with
  | true =>
    by_cases hem : emitThrows subs lv = true
    · simp [ciEmit_snd, hem]
    · have hem2 : emitThrows subs lv = false := by simpa using hem
      simp [ciEmit_snd, hem2]
  | false =>
    by_cases hr : (args.any fun a => a.renderThrows) = true
    · rw [renderAll_of_fails args hr]
      simp [Except.map, hr]
    · have hr2 : (args.any fun a => a.renderThrows) = false := by simpa using hr
      rw [renderAll_of_ok args hr2]
      by_cases hem : emitThrows subs lv = true
      · simp [Except.map, hr2, hem, ciEmit_snd]
      · have hem2 : emitThrows subs lv = false := by simpa using hem
        simp [Except.map, hr2, hem2, ciEmit_snd]

theorem foldl_leveled_upstream (minimal : Bool) (subs : List (String × Handler)) :
    ∀ (calls : List (String × List JSArg)) (s : CIState),
      (((calls.map fun c => ConsoleCall.leveled c.1 c.2).foldl
          (runCall minimal subs) s).upstream.filterMap upstreamCallProj =
        s.upstream.filterMap upstreamCallProj ++ calls) ∧
      (((calls.map fun c => ConsoleCall.leveled c.1 c.2).foldl
          (runCall minimal subs) s).upstream.countP (fun u => u.isReport) =
        s.upstream.countP (fun u => u.isReport) +
          calls.countP (fun c => pipelineFails minimal subs c.1 c.2)) := by
  intro calls
  induction calls with
  | nil =>
    intro s
    simp
  | cons c rest ih =>
    intro s
    rw [List.map_cons, List.foldl_cons]
    have hrun : runCall minimal subs s (ConsoleCall.leveled c.1 c.2) =
        consoleWrapper minimal subs c.1 c.2 s := rfl
    rw [hrun]
    have hdelta := consoleWrapper_upstream_delta minimal subs c.1 c.2 s
    obtain ⟨ih1, ih2⟩ := ih (consoleWrapper minimal subs c.1 c.2 s)
    constructor
    · rw [ih1, hdelta, List.filterMap_append]
      by_cases hf : pipelineFails minimal subs c.1 c.2 = true
      · simp [hf, upstreamCallProj]
      · have hf2 : pipelineFails minimal subs c.1 c.2 = false := by simpa using hf
        simp [hf2, upstreamCallProj]
    · rw [ih2, hdelta, List.countP_append, List.countP_cons]
      by_cases hf : pipelineFails minimal subs c.1 c.2 = true
      · simp [hf, UpstreamCall.isReport, List.countP_cons]
        omega
      · have hf2 : pipelineFails minimal subs c.1 c.2 = false := by simpa using hf
        simp [hf2, UpstreamCall.isReport, List.countP_cons]

/-- C1: interception transparency for the leveled logging entry points
wrapped by the `ConsoleInterceptor`.  For every sequence of calls to the
wrappers, the saved upstream implementations are invoked exactly once per
call, in the original call order, with the original arguments unmodified,
regardless of the subscriber table and of rendering or listener
exceptions; the wrapper itself is a total function (it never throws to
the caller), and each call whose internal pipeline fails produces exactly
one report through the saved upstream `error` implementation. -/
theorem interception_transparency (minimal : Bool)
    (subs : List (String × Handler)) (keep : Nat)
    (calls : List (String × List JSArg)) :
    ((runCalls minimal subs keep
        (calls.map fun c => ConsoleCall.leveled c.1 c.2)).upstream.filterMap
        upstreamCallProj = calls) ∧
    ((runCalls minimal subs keep
        (calls.map fun c => ConsoleCall.leveled c.1 c.2)).upstream.countP
        (fun u => u.isReport) =
      calls.countP (fun c => pipelineFails minimal subs c.1 c.2)) := by
  unfold runCalls
  have h := foldl_leveled_upstream minimal subs calls (initCIState keep)
  constructor
  · rw [h.1]
    simp [initCIState]
  · rw [h.2]
    simp [initCIState]

theorem consoleWrapper_of_nothrow (minimal : Bool)
    (subs : List (String × Handler)) (lv : String) (args : List JSArg)
    (s : CIState) (hno : ∀ p ∈ subs, p.2.throws = false)
    (hrender : renderFails minimal args = false) :
    consoleWrapper minimal subs lv args s =
      { buffer := s.buffer.push (wrapperEvent minimal lv args),
        deliveries := s.deliveries ++
          ((listenersFor subs lv).map
            (fun h => (lv, h.id, wrapperEvent minimal lv args)) ++
           (listenersFor subs "any").map
            (fun h => ("any", h.id, wrapperEvent minimal lv args))),
        upstream := s.upstream ++ [UpstreamCall.call lv args] } := by
  have hci : ∀ ev, ciEmit subs lv ev =
      ((listenersFor subs lv).map (fun h => (lv, h.id, ev)) ++
       (listenersFor subs "any").map (fun h => ("any", h.id, ev)), false) :=
    fun ev => ciEmit_of_nothrow subs lv ev hno
  cases minimal with
  | true =>
    simp [consoleWrapper, hci, wrapperEvent]
  | false =>
    have hr : (args.any fun a => a.renderThrows) = false := by
      simpa [renderFails] using hrender
    simp [consoleWrapper, renderAll_of_ok args hr, Except.map, hci, wrapperEvent]

theorem filter_channel_map (ch target : String) (ev : LogEvent)
    (hs : List Handler) (h : ch ≠ target) :
    ((hs.map (fun x => ((ch, x.id, ev) : Delivery))).filter
      (fun d => d.1 == target)) = [] := by
  have hbe : (ch == target) = false := by
    simpa using h
  induction hs with
  | nil => rfl
  | cons x t ih =>
    simp only [List.map_cons, List.filter_cons, hbe]
    exact ih

theorem foldl_leveled_deliveries (minimal : Bool)
    (subs : List (String × Handler)) (i : Nat)
    (hno : ∀ p ∈ subs, p.2.throws = false)
    (hany : listenersFor subs "any" = [⟨i, false⟩]) :
    ∀ (calls : List (String × List JSArg)) (s : CIState),
      (∀ c ∈ calls, renderFails minimal c.2 = false) →
      (∀ c ∈ calls, c.1 ≠ "any") →
      ((((calls.map fun c => ConsoleCall.leveled c.1 c.2).foldl
          (runCall minimal subs) s).deliveries.filter
          (fun d => d.1 == "any")).map (fun d => (d.2.1, d.2.2.level))) =
        ((s.deliveries.filter (fun d => d.1 == "any")).map
          (fun d => (d.2.1, d.2.2.level))) ++ calls.map (fun c => (i, c.1)) := by
  intro calls
  induction calls with
  | nil =>
    intro s _ _
    simp
  | cons c rest ih =>
    intro s hrender hlv
    rw [List.map_cons, List.foldl_cons]
    have hrun : runCall minimal subs s (ConsoleCall.leveled c.1 c.2) =
        consoleWrapper minimal subs c.1 c.2 s := rfl
    rw [hrun, consoleWrapper_of_nothrow minimal subs c.1 c.2 s hno
      (hrender c (by simp))]
    rw [ih _ (fun x hx => hrender x (by simp [hx]))
      (fun x hx => hlv x (by simp [hx]))]
    rw [List.filter_append, List.filter_append]
    rw [filter_channel_map c.1 "any" _ _ (hlv c (by simp))]
    rw [hany]
    simp [wrapperEvent]

/-- C3: a listener subscribed only to the catch-all channel receives
exactly one event per leveled log call, in order, tagged with the
originating level, whatever level-specific listeners exist; and the
overridden `emit` never throws for a level with zero level-specific
subscribers, the level named `error` included: with throw-free listeners
it never throws at all. -/
theorem catchall_delivery (minimal : Bool) (keep : Nat)
    (subs : List (String × Handler)) (i : Nat)
    (calls : List (String × List JSArg))
    (hno : ∀ p ∈ subs, p.2.throws = false)
    (hany : listenersFor subs "any" = [⟨i, false⟩])
    (hrender : ∀ c ∈ calls, renderFails minimal c.2 = false)
    (hlv : ∀ c ∈ calls, c.1 ≠ "any") :
    ((((runCalls minimal subs keep
        (calls.map fun c => ConsoleCall.leveled c.1 c.2)).deliveries.filter
        (fun d => d.1 == "any")).map (fun d => (d.2.1, d.2.2.level))) =
      calls.map (fun c => (i, c.1))) ∧
    (∀ subs2 : List (String × Handler),
      (∀ p ∈ subs2, p.2.throws = false) →
      ∀ lv ev, (ciEmit subs2 lv ev).2 = false) := by
  constructor
  · unfold runCalls
    rw [foldl_leveled_deliveries minimal subs i hno hany calls
      (initCIState keep) hrender hlv]
    simp [initCIState]
  · intro subs2 hno2 lv ev
    rw [ciEmit_snd]
    unfold emitThrows
    rw [listenersFor_nothrow subs2 lv hno2,
      listenersFor_nothrow subs2 "any" hno2]
    rfl

/-- Witness for C3: one catch-all listener (id 7), two calls at levels
`log` and `error` (the latter with zero level-specific subscribers), each
delivered exactly once with its level. -/
theorem catchall_delivery_witness :
    ((((runCalls false [("any", ⟨7, false⟩)] 3
        ([("log", [⟨"a", false⟩]), ("error", [])].map
          fun c => ConsoleCall.leveled c.1 c.2)).deliveries.filter
        (fun d => d.1 == "any")).map (fun d => (d.2.1, d.2.2.level))) =
      [(7, "log"), (7, "error")]) :=
  (catchall_delivery false 3 [("any", ⟨7, false⟩)] 7
    [("log", [⟨"a", false⟩]), ("error", [])]
    (by decide) (by decide) (by decide) (by decide)).1

theorem mem_push_buf {α : Type} (rb : RingBuffer α) (el x : α)
    (hx : x ∈ (rb.push el).buf) : x ∈ rb.buf ∨ x = el := by
  unfold RingBuffer.push at hx
  by_cases h : rb.next < rb.buf.length
  · rw [if_pos h] at hx
    exact List.mem_or_eq_of_mem_set hx
  · rw [if_neg h] at hx
    simpa using hx

theorem mem_deliverTo (ch : String) (ev : LogEvent) (hs : List Handler)
    (d : Delivery) (hd : d ∈ (deliverTo ch ev hs).1) : d.2.2 = ev := by
  induction hs with
  | nil => simp [deliverTo] at hd
  | cons x t ih =>
    unfold deliverTo at hd
    by_cases hth : x.throws = true
    · rw [if_pos hth] at hd
      simp at hd
      rw [hd]
    · rw [if_neg hth] at hd
      simp at hd
      rcases hd with hd | hd
      · rw [hd]
      · exact ih hd

theorem mem_underlyingEmit (subs : List (String × Handler)) (name : String)
    (ev : LogEvent) (d : Delivery)
    (hd : d ∈ (underlyingEmit subs name ev).1) : d.2.2 = ev := by
  unfold underlyingEmit at hd
  by_cases hc : name = "error" ∧ listenersFor subs name = []
  · rw [if_pos hc] at hd
    simp at hd
  · rw [if_neg hc] at hd
    exact mem_deliverTo name ev _ d hd

theorem mem_ciEmit (subs : List (String × Handler)) (name : String)
    (ev : LogEvent) (d : Delivery)
    (hd : d ∈ (ciEmit subs name ev).1) : d.2.2 = ev := by
  simp only [ciEmit] at hd
  by_cases hne : listenersFor subs name ≠ []
  · rw [if_pos hne] at hd
    by_cases h2 : (underlyingEmit subs name ev).2 = true
    · rw [if_pos h2] at hd
      exact mem_underlyingEmit subs name ev d hd
    · rw [if_neg h2] at hd
      simp at hd
      rcases hd with hd | hd
      · exact mem_underlyingEmit subs name ev d hd
      · exact mem_underlyingEmit subs "any" ev d hd
  · rw [if_neg hne] at hd
    rw [if_neg (by simp)] at hd
    simp at hd
    exact mem_underlyingEmit subs "any" ev d hd

theorem renderAll_ok_length (args : List JSArg) (l : List String)
    (h : renderAll args = .ok l) : l.length = args.length := by
  induction args generalizing l with
  | nil =>
    simp [renderAll] at h
    simp [h]
  | cons a as ih =>
    unfold renderAll at h
    cases hi : inspector a with
    | error e => rw [hi] at h; exact absurd h (by simp)
    | ok sa =>
      rw [hi] at h
      cases hr : renderAll as with
      | error e => rw [hr] at h; exact absurd h (by simp)
      | ok rest =>
        rw [hr] at h
        simp at h
        rw [← h]
        simp [ih rest hr]

theorem stateOk_consoleWrapper (minimal : Bool)
    (subs : List (String × Handler)) (lv : String) (args : List JSArg)
    (s : CIState) (h : stateOk s) :
    stateOk (consoleWrapper minimal subs lv args s) := by
  cases hrend : (if minimal then Except.ok none
      else (renderAll args).map some : Except Unit (Option (List String))) with
  | error e =>
    have hs : consoleWrapper minimal subs lv args s =
        { s with upstream :=
            s.upstream ++ [UpstreamCall.errorReport, UpstreamCall.call lv args] } := by
      simp only [consoleWrapper, hrend]
    rw [hs]
    exact h
  | ok ins =>
    have hok : eventOkB
        { level := lv, args := args, inspectedArguments := ins,
          hasDate := !minimal } = true := by
      cases minimal with
      | true =>
        simp at hrend
        rw [← hrend]
        rfl
      | false =>
        simp at hrend
        cases hra : renderAll args with
        | error e =>
          rw [hra] at hrend
          exact absurd hrend (by simp [Except.map])
        | ok l =>
          rw [hra] at hrend
          simp [Except.map] at hrend
          rw [← hrend]
          simp [eventOkB, renderAll_ok_length args l hra]
    have hshape : (consoleWrapper minimal subs lv args s).buffer =
        s.buffer.push ⟨lv, args, ins, !minimal⟩ ∧
        (consoleWrapper minimal subs lv args s).deliveries =
        s.deliveries ++ (ciEmit subs lv ⟨lv, args, ins, !minimal⟩).1 := by
      simp only [consoleWrapper, hrend]
      by_cases hem : (ciEmit subs lv ⟨lv, args, ins, !minimal⟩).2 = true
      · rw [if_pos hem]
        exact ⟨rfl, rfl⟩
      · rw [if_neg hem]
        exact ⟨rfl, rfl⟩
    constructor
    · intro ev2 hev2
      rw [hshape.1] at hev2
      rcases mem_push_buf _ _ _ hev2 with hm | hm
      · exact h.1 ev2 hm
      · rw [hm]
        exact hok
    · intro d hd
      rw [hshape.2, List.mem_append] at hd
      rcases hd with hd | hd
      · exact h.2 d hd
      · rw [mem_ciEmit subs lv _ d hd]
        exact hok

theorem stateOk_traceWrapper (minimal : Bool)
    (subs : List (String × Handler)) (args : List JSArg)
    (s : CIState) (h : stateOk s) :
    stateOk (traceWrapper minimal subs args s).1 := by
  cases minimal with
  | false => exact h
  | true =>
    have hok : eventOkB
        { level := "trace", args := args, inspectedArguments := none,
          hasDate := false } = true := rfl
    have hshape : (traceWrapper true subs args s).1.buffer =
        s.buffer.push ⟨"trace", args, none, false⟩ ∧
        (traceWrapper true subs args s).1.deliveries =
        s.deliveries ++ (ciEmit subs "trace" ⟨"trace", args, none, false⟩).1 := by
      simp only [traceWrapper, if_true]
      by_cases hem : (ciEmit subs "trace" ⟨"trace", args, none, false⟩).2 = true
      · rw [if_pos hem]
        exact ⟨rfl, rfl⟩
      · rw [if_neg hem]
        exact ⟨rfl, rfl⟩
    constructor
    · intro ev2 hev2
      rw [hshape.1] at hev2
      rcases mem_push_buf _ _ _ hev2 with hm | hm
      · exact h.1 ev2 hm
      · rw [hm]
        exact hok
    · intro d hd
      rw [hshape.2, List.mem_append] at hd
      rcases hd with hd | hd
      · exact h.2 d hd
      · rw [mem_ciEmit subs "trace" _ d hd]
        exact hok

theorem stateOk_runCalls (minimal : Bool) (subs : List (String × Handler))
    (keep : Nat) (calls : List ConsoleCall) :
    stateOk (runCalls minimal subs keep calls) := by
  unfold runCalls
  have hinit : stateOk (initCIState keep) := by
    constructor
    · intro ev hev
      simp [initCIState, RingBuffer.new] at hev
    · intro d hd
      simp [initCIState] at hd
  generalize initCIState keep = s at hinit ⊢
  induction calls generalizing s with
  | nil => exact hinit
  | cons c rest ih =>
    rw [List.foldl_cons]
    apply ih
    cases c with
    | leveled lv args => exact stateOk_consoleWrapper minimal subs lv args s hinit
    | traced args => exact stateOk_traceWrapper minimal subs args s hinit

/-- C6: every event produced by the interceptor (buffered or delivered,
at any level including `trace`) that carries an `inspectedArguments`
sequence has one rendered string per raw argument. -/
theorem renderedArguments_length_matches (minimal : Bool)
    (subs : List (String × Handler)) (keep : Nat)
    (calls : List ConsoleCall) (ev : LogEvent) (l : List String)
    (hev : ev ∈ (runCalls minimal subs keep calls).buffer.buf ∨
      ∃ d ∈ (runCalls minimal subs keep calls).deliveries, d.2.2 = ev)
    (hl : ev.inspectedArguments = some l) :
    l.length = ev.args.length := by
  have hok := stateOk_runCalls minimal subs keep calls
  have hevok : eventOkB ev = true := by
    rcases hev with hev | ⟨d, hd, hde⟩
    · exact hok.1 ev hev
    · rw [← hde]
      exact hok.2 d hd
  unfold eventOkB at hevok
  rw [hl] at hevok
  simpa using hevok

/-- Witness for C6: a two-argument `log` call in non-minimal mode renders
two strings. -/
theorem renderedArguments_length_matches_witness :
    (["a", "b"] : List String).length =
      ([⟨"a", false⟩, ⟨"b", false⟩] : List JSArg).length :=
  renderedArguments_length_matches false [] 4
    [ConsoleCall.leveled "log" [⟨"a", false⟩, ⟨"b", false⟩]]
    { level := "log", args := [⟨"a", false⟩, ⟨"b", false⟩],
      inspectedArguments := some ["a", "b"], hasDate := true }
    ["a", "b"] (Or.inl (by decide)) (by decide)

/-- C7: a session whose `logOff` flag is set at delivery time gets nothing
from the log fan-out path: no transport write and no before/write/after
redraw triad, for every event. -/
theorem logOff_suppresses_output (inspectedArguments : List String) :
    handleConsoleEvents true inspectedArguments = [] := rfl

theorem writtenText_append (a b : List SessionAction) :
    writtenText (a ++ b) = writtenText a ++ writtenText b := by
  induction a with
  | nil => simp [writtenText]
  | cons x rest ih =>
    cases x with
    | write t => simp [writtenText, ih, String.append_assoc]
    | beforeRedraw => simp [writtenText, ih]
    | afterRedraw => simp [writtenText, ih]

theorem argWrites_cons_true (a : String) (rest : List String) :
    argWrites true (a :: rest) =
      SessionAction.write (jsNewlineFix a) :: argWrites false rest := by
  simp [argWrites]

theorem argWrites_cons_false (a : String) (rest : List String) :
    argWrites false (a :: rest) =
      SessionAction.write " " :: SessionAction.write (jsNewlineFix a) ::
        argWrites false rest := by
  simp [argWrites]

theorem writtenText_argWrites_false (l : List String) :
    writtenText (argWrites false l) =
      (if l = [] then "" else " " ++ joinWith " " (l.map jsNewlineFix)) := by
  induction l with
  | nil => rfl
  | cons a rest ih =>
    rw [if_neg (by simp), argWrites_cons_false]
    show " " ++ (jsNewlineFix a ++ writtenText (argWrites false rest)) = _
    rw [ih]
    cases rest with
    | nil =>
      simp [joinWith]
    | cons b r2 =>
      rw [if_neg (by simp)]
      show " " ++ (jsNewlineFix a ++ (" " ++
        joinWith " " (jsNewlineFix b :: List.map jsNewlineFix r2))) =
        " " ++ (jsNewlineFix a ++ " " ++
        joinWith " " (jsNewlineFix b :: List.map jsNewlineFix r2))
      rw [String.append_assoc]

theorem writtenText_argWrites_true (l : List String) :
    writtenText (argWrites true l) = joinWith " " (l.map jsNewlineFix) := by
  cases l with
  | nil => rfl
  | cons a rest =>
    rw [argWrites_cons_true]
    show jsNewlineFix a ++ writtenText (argWrites false rest) = _
    rw [writtenText_argWrites_false rest]
    cases rest with
    | nil =>
      simp [joinWith]
    | cons b r2 =>
      rw [if_neg (by simp)]
      show jsNewlineFix a ++ (" " ++
        joinWith " " (jsNewlineFix b :: List.map jsNewlineFix r2)) =
        jsNewlineFix a ++ " " ++
        joinWith " " (jsNewlineFix b :: List.map jsNewlineFix r2)
      rw [String.append_assoc]

theorem crlfTranslate_eq_bare (n : Nat) :
    ∀ (l : List Char) (p : Option Char), l.length ≤ n →
      lfOk p l = true → l.head? ≠ some '\n' →
      crlfTranslate l = bareLFTranslateAux p l := by
  induction n with
  | zero =>
    intro l p hlen _ _
    have : l = [] := List.eq_nil_of_length_eq_zero (by omega)
    rw [this]
    rfl
  | succ n ih =>
    intro l p hlen hok hhead
    match l with
    | [] => rfl
    | [c] =>
      have hc : c ≠ '\n' := by
        intro hcn
        exact hhead (by rw [hcn]; rfl)
      simp only [crlfTranslate, bareLFTranslateAux]
      rw [if_neg (by simp [hc])]
    | c :: d :: rest =>
      have hc : c ≠ '\n' := by
        intro hcn
        exact hhead (by rw [hcn]; rfl)
      unfold lfOk at hok
      rw [Bool.and_eq_true] at hok
      have hok2 := hok.2
      unfold lfOk at hok2
      rw [Bool.and_eq_true] at hok2
      have hb1 : bareLFTranslateAux p (c :: d :: rest) =
          c :: bareLFTranslateAux (some c) (d :: rest) := by
        simp only [bareLFTranslateAux]
        rw [if_neg (by simp [hc])]
      by_cases hpair : c ≠ '\x0d' ∧ d = '\n'
      · -- the regex consumes the pair
        have hb2 : bareLFTranslateAux (some c) (d :: rest) =
            '\x0d' :: '\n' :: bareLFTranslateAux (some d) rest := by
          simp only [bareLFTranslateAux]
          rw [if_pos ⟨hpair.2, by simp [hpair.1]⟩]
        have hrest : crlfTranslate rest = bareLFTranslateAux (some d) rest := by
          apply ih rest (some d)
          · simp at hlen
            omega
          · exact hok2.2
          · cases rest with
            | nil => simp
            | cons e r3 =>
              intro he
              simp at he
              have h3 := hok2.2
              unfold lfOk at h3
              rw [Bool.and_eq_true] at h3
              have h4 := h3.1
              rw [he, if_pos rfl, hpair.2] at h4
              simp at h4
        simp only [crlfTranslate]
        rw [if_pos hpair, hb1, hb2, hrest, hpair.2]
      · -- the regex consumes a single character
        have hd : d ≠ '\n' := by
          intro hdn
          have h1 := hok2.1
          rw [if_pos hdn] at h1
          simp at h1
          exact hpair ⟨h1.1, hdn⟩
        have hrest : crlfTranslate (d :: rest) =
            bareLFTranslateAux (some c) (d :: rest) := by
          apply ih (d :: rest) (some c)
          · simp at hlen ⊢
            omega
          · unfold lfOk
            rw [Bool.and_eq_true]
            exact hok2
          · intro hh
            simp at hh
            exact hd hh
        simp only [crlfTranslate]
        rw [if_neg hpair, hb1, hrest]

/-- Counterexample for C8 as stated: a rendered argument consisting of a
single `\n` — a bare newline (not preceded by `\r`) — passes through
`writeLogEntry` untranslated, because the regex `([^\r])\n` needs a
preceding character to match; the every-bare-newline translation would
have produced `\r\n`.  Likewise `a\n\n`: the second bare newline stays
bare because the first match consumed the character before it. -/
theorem writeLogEntry_newline_counterexample :
    jsNewlineFix "\n" = "\n" ∧
    bareLFTranslate "\n" = "\r\n" ∧
    jsNewlineFix "a\n\n" = "a\r\n\n" ∧
    bareLFTranslate "a\n\n" = "a\r\n\r\n" ∧
    writtenText (writeLogEntry ["\n"]) = "\x1b[0G\x1b[0J\n\r\n" ∧
    writtenText (writeLogEntry ["\n"]) ≠ "\x1b[0G\x1b[0J\r\n\r\n" := by
  refine ⟨rfl, rfl, rfl, rfl, rfl, ?_⟩
  decide

/-- C8 as amended: one log entry is written as the clear sequence, the
rendered arguments joined by single spaces, and a terminating CRLF, where
each argument undergoes the left-to-right non-overlapping translation
that turns a `\n` immediately following a non-`\r` character into `\r\n`;
a `\n` at the start of an argument, or immediately after a just-translated
`\n`, stays bare.  Whenever every `\n` of an argument immediately follows
a character that is neither `\r` nor `\n`, that translation coincides
with the claimed every-bare-newline translation. -/
theorem writeLogEntry_output (argsR : List String) :
    writtenText (writeLogEntry argsR) =
      "\x1b[0G\x1b[0J" ++ joinWith " " (argsR.map jsNewlineFix) ++ "\r\n" ∧
    (∀ s : String, lfOk none s.data = true →
      jsNewlineFix s = bareLFTranslate s) := by
  constructor
  · unfold writeLogEntry
    rw [writtenText_append, writtenText_append, writtenText_argWrites_true]
    simp [writtenText]
  · intro s hok
    unfold jsNewlineFix bareLFTranslate
    have hhead : s.data.head? ≠ some '\n' := by
      cases hd : s.data with
      | nil => simp
      | cons c rest =>
        intro hh
        simp at hh
        rw [hd] at hok
        unfold lfOk at hok
        rw [Bool.and_eq_true, hh, if_pos rfl] at hok
        simp at hok
    rw [crlfTranslate_eq_bare s.data.length s.data none (le_refl _) hok hhead]

/-- Witness for C8 amended: a two-argument entry with an interior newline
in the first argument. -/
theorem writeLogEntry_output_witness :
    (writtenText (writeLogEntry ["a\nb", "c"]) =
      "\x1b[0G\x1b[0J" ++ joinWith " " (["a\nb", "c"].map jsNewlineFix) ++ "\r\n") ∧
    jsNewlineFix "a\nb" = bareLFTranslate "a\nb" :=
  ⟨(writeLogEntry_output ["a\nb", "c"]).1,
   (writeLogEntry_output ["a\nb", "c"]).2 "a\nb" (by decide)⟩

theorem fireCleanup_replaced (clientId hId : Nat) (s : CleanupState)
    (h : s.cleanupReplaced = true) : fireCleanup clientId hId s = s := by
  unfold fireCleanup
  rw [if_pos h]

theorem fireEvents_replaced (clientId hId : Nat) :
    ∀ (evs : List ClientEvent) (s : CleanupState),
      s.cleanupReplaced = true → fireEvents clientId hId s evs = s := by
  intro evs
  induction evs with
  | nil => intro s _; rfl
  | cons e rest ih =>
    intro s h
    have hstep : fireClientEvent clientId hId s e = s := by
      cases e with
      | errorEvent => exact fireCleanup_replaced clientId hId s h
      | closeEvent => exact fireCleanup_replaced clientId hId s h
    show fireEvents clientId hId (fireClientEvent clientId hId s e) rest = s
    rw [hstep]
    exact ih s h

/-- C4: session cleanup is idempotent.  Starting from an active session
(client present in the registry once, its log handler subscribed to the
catch-all channel once, `cleanup` not yet replaced), firing any non-empty
sequence of `error`/`close` events — either order, same event twice —
removes the client from the registry exactly once, unsubscribes its
handler from the interceptor exactly once, never warns, and never
throws (every step is a total function). -/
theorem cleanup_idempotent (clientId hId : Nat) (s0 : CleanupState)
    (hreg : s0.registry.count clientId = 1)
    (hsub : s0.anySubs.count hId = 1)
    (hrepl : s0.cleanupReplaced = false)
    (hrm : s0.registryRemovals = 0)
    (hun : s0.interceptorUnsubs = 0)
    (hw : s0.warns = 0)
    (evs : List ClientEvent) (hne : evs ≠ []) :
    (fireEvents clientId hId s0 evs).registryRemovals = 1 ∧
    (fireEvents clientId hId s0 evs).interceptorUnsubs = 1 ∧
    (fireEvents clientId hId s0 evs).warns = 0 ∧
    clientId ∉ (fireEvents clientId hId s0 evs).registry ∧
    hId ∉ (fireEvents clientId hId s0 evs).anySubs := by
  have hmemreg : clientId ∈ s0.registry := by
    rw [← List.count_pos_iff]
    omega
  have hmemsub : hId ∈ s0.anySubs := by
    rw [← List.count_pos_iff]
    omega
  cases evs with
  | nil => exact absurd rfl hne
  | cons e rest =>
    have hstep : fireClientEvent clientId hId s0 e =
        { registry := s0.registry.erase clientId,
          anySubs := s0.anySubs.erase hId,
          cleanupReplaced := true,
          destroyCalls := s0.destroyCalls + 1,
          registryRemovals := s0.registryRemovals + 1,
          interceptorUnsubs := s0.interceptorUnsubs + 1,
          warns := s0.warns } := by
      have hbody : fireCleanup clientId hId s0 =
          { registry := s0.registry.erase clientId,
            anySubs := s0.anySubs.erase hId,
            cleanupReplaced := true,
            destroyCalls := s0.destroyCalls + 1,
            registryRemovals := s0.registryRemovals + 1,
            interceptorUnsubs := s0.interceptorUnsubs + 1,
            warns := s0.warns } := by
        unfold fireCleanup
        rw [if_neg (by simp [hrepl])]
        rw [if_pos hmemreg, if_pos hmemsub, if_pos hmemreg]
        simp
      cases e with
      | errorEvent => exact hbody
      | closeEvent => exact hbody
    have hrun : fireEvents clientId hId s0 (e :: rest) =
        fireEvents clientId hId (fireClientEvent clientId hId s0 e) rest := rfl
    rw [hrun, hstep, fireEvents_replaced clientId hId rest _ rfl]
    refine ⟨by simp [hrm], by simp [hun], by simp [hw], ?_, ?_⟩
    · show clientId ∉ s0.registry.erase clientId
      rw [← List.count_eq_zero]
      rw [List.count_erase_self]
      omega
    · show hId ∉ s0.anySubs.erase hId
      rw [← List.count_eq_zero]
      rw [List.count_erase_self]
      omega

/-- Witness for C4: a registry holding clients 5 and 6, client 5 cleaned
up by an error event followed by a duplicated close event. -/
theorem cleanup_idempotent_witness :
    (fireEvents 5 9 ⟨[5, 6], [9, 11], false, 0, 0, 0, 0⟩
      [ClientEvent.errorEvent, ClientEvent.closeEvent,
       ClientEvent.closeEvent]).registryRemovals = 1 ∧
    (fireEvents 5 9 ⟨[5, 6], [9, 11], false, 0, 0, 0, 0⟩
      [ClientEvent.errorEvent, ClientEvent.closeEvent,
       ClientEvent.closeEvent]).interceptorUnsubs = 1 ∧
    (fireEvents 5 9 ⟨[5, 6], [9, 11], false, 0, 0, 0, 0⟩
      [ClientEvent.errorEvent, ClientEvent.closeEvent,
       ClientEvent.closeEvent]).warns = 0 ∧
    5 ∉ (fireEvents 5 9 ⟨[5, 6], [9, 11], false, 0, 0, 0, 0⟩
      [ClientEvent.errorEvent, ClientEvent.closeEvent,
       ClientEvent.closeEvent]).registry ∧
    9 ∉ (fireEvents 5 9 ⟨[5, 6], [9, 11], false, 0, 0, 0, 0⟩
      [ClientEvent.errorEvent, ClientEvent.closeEvent,
       ClientEvent.closeEvent]).anySubs :=
  cleanup_idempotent 5 9 ⟨[5, 6], [9, 11], false, 0, 0, 0, 0⟩
    (by decide) (by decide) (by decide) (by decide) (by decide) (by decide)
    [ClientEvent.errorEvent, ClientEvent.closeEvent, ClientEvent.closeEvent]
    (by decide)

/-- Counterexample for C5 as stated: the delays of attempts with
`tries = 4, 5, 6` are all equal to the 5000 ms cap, so not every three
consecutive wrong-credential attempts produce strictly increasing
delays. -/
theorem login_backoff_counterexample :
    backoffDelayMs 4 = 5000 ∧ backoffDelayMs 5 = 5000 ∧
    backoffDelayMs 6 = 5000 ∧
    ¬(backoffDelayMs 4 < backoffDelayMs 5 ∧
      backoffDelayMs 5 < backoffDelayMs 6) := by
  refine ⟨rfl, rfl, rfl, ?_⟩
  decide

/-- C5 as amended: the first three backoff delays (150, 300, 900 ms) are
strictly increasing integers, every delay the loop can compute is bounded
by the fixed maximum 5000 ms, and the delay sequence is nondecreasing. -/
theorem login_backoff_amended :
    backoffDelayMs 0 < backoffDelayMs 1 ∧
    backoffDelayMs 1 < backoffDelayMs 2 ∧
    backoffDelayMs 0 = 150 ∧ backoffDelayMs 1 = 300 ∧
    backoffDelayMs 2 = 900 ∧
    (∀ t, backoffDelayMs t ≤ 5000) ∧
    (∀ t, backoffDelayMs t ≤ backoffDelayMs (t + 1)) := by
  refine ⟨by decide, by decide, rfl, rfl, rfl,
    fun t => min_le_left _ _, fun t => ?_⟩
  unfold backoffDelayMs
  apply min_le_min (le_refl 5000)
  have hp : 4 ^ t ≤ 4 ^ (t + 1) :=
    Nat.pow_le_pow_right (by omega) (Nat.le_succ t)
  omega

/-- C10: an empty login line exits the attempt loop at once — by
short-circuit the credential predicate need not have accepted (the
theorem holds for every `auth`, including one that never accepts) — and
the session still becomes active: the empty string is recorded as the
identity, the welcome banner is written, and a REPL is attached; the
connection is not terminated. -/
theorem empty_login_proceeds (auth : String → String → Bool)
    (optLogOff : Bool) (pw : String) (rest : List (String × String)) :
    authLoop auth (("", pw) :: rest) = some "" ∧
    handleAuthPhase auth optLogOff (("", pw) :: rest) =
      some { login := some "", welcomeWritten := true,
             replAttached := true, logOff := optLogOff } := by
  have h1 : authLoop auth (("", pw) :: rest) = some "" := by
    unfold authLoop
    rw [if_neg]
    intro hc
    exact hc.1 rfl
  refine ⟨h1, ?_⟩
  unfold handleAuthPhase
  rw [h1]

theorem takeWhile_append_all (p : Char → Bool) :
    ∀ (l1 l2 : List Char), (∀ c ∈ l1, p c = true) →
      (l1 ++ l2).takeWhile p = l1 ++ l2.takeWhile p := by
  intro l1
  induction l1 with
  | nil =>
    intro l2 _
    rfl
  | cons c t ih =>
    intro l2 h
    rw [List.cons_append, List.takeWhile_cons, h c (by simp),
      ih l2 (fun x hx => h x (by simp [hx]))]
    rfl

theorem parseCommandLine_append (name rest : String)
    (hne : name.data ≠ [])
    (hw : ∀ c ∈ name.data, isWordChar c = true)
    (hhead : rest.data.head? = some '.' ∨ rest.data.head? = some '[')
    (hlast : rest.data.getLast? ≠ some '\n') :
    parseCommandLine (name ++ rest) = (name, rest) := by
  obtain ⟨r0, rd, hrd⟩ : ∃ r0 rd, rest.data = r0 :: rd := by
    cases h : rest.data with
    | nil =>
      rw [h] at hhead
      rcases hhead with h1 | h1 <;> simp at h1
    | cons a b => exact ⟨a, b, rfl⟩
  have hr0 : r0 = '.' ∨ r0 = '[' := by
    rw [hrd] at hhead
    rcases hhead with h1 | h1
    · left
      simpa using h1
    · right
      simpa using h1
  have hr0w : isWordChar r0 = false := by
    rcases hr0 with rfl | rfl <;> decide
  have hr0s : r0.isWhitespace = false := by
    rcases hr0 with rfl | rfl <;> decide
  have htw : (r0 :: rd).takeWhile isWordChar = [] := by
    simp [List.takeWhile_cons, hr0w]
  have hdw : (r0 :: rd).dropWhile (fun c => c.isWhitespace) = r0 :: rd := by
    simp [List.dropWhile_cons, hr0s]
  simp only [parseCommandLine, String.data_append, hrd]
  rw [takeWhile_append_all isWordChar name.data (r0 :: rd) hw, htw,
    List.append_nil, List.drop_left, hdw,
    if_neg (by rw [← hrd]; exact hlast), ← hrd]

/-- C9: for every input line whose first word is a registered command
(any table, any word-character name other than `keys`) and whose
remainder begins with `.` or `[`, when the command handler returns an
object the dispatcher returns the result of applying the remainder as a
host-evaluated property/index access to that object rather than the
object itself; in particular `whoami.pid` returns the `pid` field of the
`whoami` record — not the whole record — for every host environment. -/
theorem command_drilldown (tbl : List (String × (String → JSValue)))
    (name rest : String) (q : String × (String → JSValue))
    (fields : List (String × JSValue))
    (hne : name.data ≠ [])
    (hw : ∀ c ∈ name.data, isWordChar c = true)
    (hkeys : name ≠ "keys")
    (hfind : tbl.find? (fun p => p.1 == name) = some q)
    (hrest : rest.data.head? = some '.' ∨ rest.data.head? = some '[')
    (hlast : rest.data.getLast? ≠ some '\n')
    (hobj : q.2 rest = JSValue.obj fields) :
    evalWrapperModel tbl (name ++ rest) =
      EvalOutcome.value (hostAccess rest (JSValue.obj fields)) ∧
    (∀ env : HostEnv,
      evalWrapperModel (defaultCommandsTbl env) "whoami.pid" =
        EvalOutcome.value (JSValue.num env.pid) ∧
      evalWrapperModel (defaultCommandsTbl env) "whoami.pid" ≠
        EvalOutcome.value (whoamiRecord env)) := by
  constructor
  · have hp := parseCommandLine_append name rest hne hw hrest hlast
    simp only [evalWrapperModel, hp]
    rw [if_neg hkeys, hfind]
    simp only [hobj]
    rw [if_neg (fun hcon => hkeys hcon.1)]
    rw [if_pos ⟨rfl, hrest⟩]
  · intro env
    have hp2 : parseCommandLine "whoami.pid" = ("whoami", ".pid") := by decide
    have hsplit : splitDotPath ".pid".data = some ["pid"] := by decide
    have hb1 : (("stat" : String) == "whoami") = false := by decide
    have hb2 : (("uptime" : String) == "whoami") = false := by decide
    have hb3 : (("whoami" : String) == "whoami") = true := by decide
    have hbp : (("process" : String) == "pid") = false := by decide
    have hbq : (("pid" : String) == "pid") = true := by decide
    have h1 : evalWrapperModel (defaultCommandsTbl env) "whoami.pid" =
        EvalOutcome.value (JSValue.num env.pid) := by
      simp only [evalWrapperModel, hp2]
      norm_num
      simp [defaultCommandsTbl, whoamiRecord, hostAccess, hsplit, walkPath,
        jsGetProp, getField, isObjB, List.find?, hb1, hb2, hb3, hbp, hbq]
    refine ⟨h1, ?_⟩
    rw [h1]
    simp [whoamiRecord]

/-- Witness for C9: in a concrete host environment, `stat.memory` returns
the `memory` field of the `stat` record. -/
theorem command_drilldown_witness :
    evalWrapperModel (defaultCommandsTbl hostEnvExample) ("stat" ++ ".memory") =
      EvalOutcome.value (JSValue.external "memoryUsage") := by
  have h := (command_drilldown (defaultCommandsTbl hostEnvExample)
    "stat" ".memory"
    ("stat", fun _ => statRecord hostEnvExample)
    [("resources", JSValue.external "resourceUsage"),
     ("memory", JSValue.external "memoryUsage"),
     ("totalmem", JSValue.num 8589934592)]
    (by decide) (by decide) (by decide) rfl
    (Or.inl (by decide)) (by decide) rfl).1
  rw [h]
  have hs : splitDotPath ".memory".data = some ["memory"] := by decide
  have hm1 : (("resources" : String) == "memory") = false := by decide
  have hm2 : (("memory" : String) == "memory") = true := by decide
  simp [hostAccess, hs, walkPath, jsGetProp, getField, List.find?, hm1, hm2]
